import Mathlib

/-!
Verification of the condition-evaluation core of `src/rule.js`
(json-rules-engine).  The JavaScript class `Rule` is shallowly embedded:
promises become explicit result values paired with a trace of the fact
lookups that were initiated, in initiation order; JS runtime values that
can flow through the evaluator become the type `JSVal`; thrown errors and
rejected promises become `Except.error`.
-/

/-- JS runtime values that can appear as a condition's comparison value or
as the resolution value of the promise chain in `prioritizeAndRun`
(`undefined` is the resolution value of the initial `Promise.resolve()`). -/
inductive JSVal where
  | undef : JSVal
  | bool (b : Bool) : JSVal
  | num (n : Int) : JSVal
  | str (s : String) : JSVal
deriving DecidableEq

/-- The two boolean combining operators of rule.js (`'any'` / `'all'`). -/
inductive BOp where
  | any : BOp
  | all : BOp
deriving DecidableEq

/-- A condition node as consumed by rule.js: either a leaf carrying a fact
reference, params, an optional `priority` field and its external comparison
evaluator, or a boolean-operator node wrapping child conditions.  The
comparison evaluator `cmp` stands for the external `Condition#evaluate`
(src/condition.js, which is not part of this repository's source). -/
inductive Condition where
  | leaf (fact : String) (prms : JSVal) (priority : Option Int)
      (cmp : JSVal → JSVal) : Condition
  | boolOp (op : BOp) (priority : Option Int)
      (children : List Condition) : Condition

/-- The `priority` field of a condition (`condition.priority`). -/
def Condition.priorityField : Condition → Option Int
  | .leaf _ _ pr _ => pr
  | .boolOp _ pr _ => pr

/-- The `fact` field of a condition; a boolean-operator node has none
(reading it in JS yields `undefined`). -/
def Condition.factName : Condition → Option String
  | .leaf f _ _ _ => some f
  | .boolOp _ _ _ => none

/-- Modelled from the spec: `Condition#evaluate` (src/condition.js is absent
from the source tree).  Per the spec, the comparison evaluator is a
"leaf-only comparison against the stored value"; for a boolean-operator
node the nested boolean result "is the leaf's value" and is used directly,
so no comparison is applied to it. -/
def Condition.evaluateVal : Condition → JSVal → JSVal
  | .leaf _ _ _ cmp, v => cmp v
  | .boolOp _ _ _, v => v

/-- The Fact Provider interface consumed by rule.js (`this.engine`):
`getFact` returns the registered priority of a fact (or `none` when the
fact is not registered), and `factValue` resolves a fact's value (a
rejected promise becomes `Except.error`). -/
structure Engine where
  getFact : String → Option Int
  factValue : String → JSVal → Except String JSVal

/-- The error message thrown by `prioritizeConditions` for an unknown fact:
`Undefined fact: ${condition.fact}` — for a boolean-operator node the
`fact` field is `undefined`, so the interpolation prints `undefined`. -/
def undefFactMsg : Option String → String
  | some f => "Undefined fact: " ++ f
  | none => "Undefined fact: undefined"

/-- Lookup of the fact-supplied priority (`this.engine.getFact(condition.fact)`
followed by the undefined-fact check and `fact.priority`). -/
def factPriorityOf (eng : Engine) (c : Condition) : Except String Int :=
  match c.factName with
  | some f =>
    match eng.getFact f with
    | some pr => Except.ok pr
    | none => Except.error (undefFactMsg (some f))
  | none => Except.error (undefFactMsg none)

/-- The effective priority of a condition, as computed by the body of the
`reduce` in `prioritizeConditions` (rule.js lines 111-118): the condition's
own `priority` field when it is truthy (the JS test `!priority` treats an
explicit `0` like an absent priority), otherwise the priority registered
for its fact. -/
def effPriority (eng : Engine) (c : Condition) : Except String Int :=
  match c.priorityField with
  | some p => if p = 0 then factPriorityOf eng c else Except.ok p
  | none => factPriorityOf eng c

/-- The claim's reading of effective priority: the condition's own
`priority` field whenever it is present, otherwise the fact's registered
priority.  (Differs from `effPriority` exactly on an explicit priority 0.) -/
def claimEffPriority (eng : Engine) (c : Condition) : Except String Int :=
  match c.priorityField with
  | some p => Except.ok p
  | none => factPriorityOf eng c

/-- Adds a condition to the bucket keyed by its effective priority, keeping
insertion order inside the bucket and creating the bucket on first use
(`if (!sets[priority]) sets[priority] = []; sets[priority].push(condition)`). -/
def insertBucket (p : Int) (c : Condition) :
    List (Int × List Condition) → List (Int × List Condition)
  | [] => [(p, [c])]
  | (q, g) :: rest =>
    if q = p then (q, g ++ [c]) :: rest else (q, g) :: insertBucket p c rest

/-- The `reduce` of `prioritizeConditions`: walks the sibling list left to
right, computing each condition's effective priority and bucketing it;
throws (stops with `Except.error`) at the first condition whose priority
cannot be determined. -/
def buildBuckets (prio : Condition → Except String Int) :
    List (Int × List Condition) → List Condition →
    Except String (List (Int × List Condition))
  | sets, [] => Except.ok sets
  | sets, c :: cs =>
    match prio c with
    | Except.error e => Except.error e
    | Except.ok p => buildBuckets prio (insertBucket p c sets) cs

/-- Insertion of one keyed bucket into a list ordered by strictly greater
priority first. -/
def insertDesc (x : Int × List Condition) :
    List (Int × List Condition) → List (Int × List Condition)
  | [] => [x]
  | y :: ys => if x.1 > y.1 then x :: y :: ys else y :: insertDesc x ys

/-- Sorts the buckets by priority key, highest first — the observable
effect of `Object.keys(factSets).sort((a, b) => Number(a) > Number(b) ? -1 : 1)`
on the distinct numeric keys of the bucket map. -/
def sortDesc : List (Int × List Condition) → List (Int × List Condition)
  | [] => []
  | x :: xs => insertDesc x (sortDesc xs)

/-- Grouping pipeline of `prioritizeConditions`, parameterized by the
function that assigns each condition its priority key. -/
def groupByPriority (prio : Condition → Except String Int)
    (conditions : List Condition) : Except String (List (List Condition)) :=
  match buildBuckets prio [] conditions with
  | Except.error e => Except.error e
  | Except.ok sets => Except.ok ((sortDesc sets).map (fun s => s.2))

/-- `Rule#prioritizeConditions` (rule.js lines 107-126): partition a sibling
list into buckets keyed by effective priority and return them ordered by
priority descending. -/
def prioritizeConditions (eng : Engine) (conditions : List Condition) :
    Except String (List (List Condition)) :=
  groupByPriority (effPriority eng) conditions

/-- The grouping that claim C6 describes: identical pipeline, but keyed by
the claim's notion of effective priority (own priority whenever present). -/
def claimPrioritizeConditions (eng : Engine) (conditions : List Condition) :
    Except String (List (List Condition)) :=
  groupByPriority (claimEffPriority eng) conditions

/-! Size measures used to justify termination of the mutual evaluator.
`cw` weighs a condition, `lw` a sibling list, `gw` a list of priority
groups, and `bw` a keyed bucket list. -/

mutual
/-- Weight of a single condition. -/
def cw : Condition → Nat
  | .leaf _ _ _ _ => 1
  | .boolOp _ _ children => 2 * lw children + 2

/-- Weight of a list of conditions. -/
def lw : List Condition → Nat
  | [] => 0
  | c :: cs => cw c + 1 + lw cs
end

/-- Weight of a list of priority groups. -/
def gw : List (List Condition) → Nat
  | [] => 0
  | g :: gs => lw g + 2 + gw gs

/-- Weight of a keyed bucket list. -/
def bw : List (Int × List Condition) → Nat
  | [] => 0
  | (_, g) :: rest => lw g + 2 + bw rest

theorem cw_pos (c : Condition) : 1 ≤ cw c := by
  cases c <;> simp [cw]

theorem lw_append_single (xs : List Condition) (c : Condition) :
    lw (xs ++ [c]) = lw xs + (cw c + 1) := by
  induction xs with
  | nil => simp [lw]
  | cons x xs ih => simp [lw, ih]; omega

theorem bw_insertBucket (p : Int) (c : Condition)
    (sets : List (Int × List Condition)) :
    bw (insertBucket p c sets) ≤ bw sets + cw c + 3 := by
  induction sets with
  | nil => simp [insertBucket, bw, lw]
  | cons y rest ih =>
    obtain ⟨q, g⟩ := y
    by_cases h : q = p
    · simp [insertBucket, h, bw, lw_append_single]; omega
    · simp [insertBucket, h, bw]; omega

theorem bw_buildBuckets (prio : Condition → Except String Int) :
    ∀ (cs : List Condition) (sets sets' : List (Int × List Condition)),
    buildBuckets prio sets cs = Except.ok sets' →
    bw sets' ≤ bw sets + 2 * lw cs := by
  intro cs
  induction cs with
  | nil =>
    intro sets sets' h
    simp [buildBuckets] at h
    simp [h, lw]
  | cons c cs ih =>
    intro sets sets' h
    simp only [buildBuckets] at h
    cases hp : prio c with
    | error e => rw [hp] at h; exact absurd h (by simp)
    | ok p =>
      rw [hp] at h
      have h1 := ih (insertBucket p c sets) sets' h
      have h2 := bw_insertBucket p c sets
      have h3 := cw_pos c
      simp [lw]
      omega

theorem bw_insertDesc (x : Int × List Condition)
    (l : List (Int × List Condition)) :
    bw (insertDesc x l) = lw x.2 + 2 + bw l := by
  induction l with
  | nil => cases x; simp [insertDesc, bw]
  | cons y ys ih =>
    obtain ⟨xp, xg⟩ := x
    obtain ⟨yp, yg⟩ := y
    simp only [insertDesc]
    split
    · simp [bw]
    · simp [bw, ih]; omega

theorem bw_sortDesc (l : List (Int × List Condition)) :
    bw (sortDesc l) = bw l := by
  induction l with
  | nil => rfl
  | cons x xs ih => simp [sortDesc, bw_insertDesc, ih, bw]

theorem gw_map_snd (l : List (Int × List Condition)) :
    gw (l.map (fun s => s.2)) = bw l := by
  induction l with
  | nil => rfl
  | cons x xs ih => cases x; simp [gw, bw, ih]

theorem gw_groupByPriority (prio : Condition → Except String Int)
    (cs : List Condition) (gs : List (List Condition))
    (h : groupByPriority prio cs = Except.ok gs) : gw gs ≤ 2 * lw cs := by
  unfold groupByPriority at h
  cases hb : buildBuckets prio [] cs with
  | error e => rw [hb] at h; exact absurd h (by simp)
  | ok sets =>
    rw [hb] at h
    have h1 := bw_buildBuckets prio cs [] sets hb
    simp only [Except.ok.injEq] at h
    subst h
    rw [gw_map_snd, bw_sortDesc]
    simpa [bw] using h1

/-- Whether one condition result satisfies the predicate
`(result) => result === true` used by `evaluateConditions`: strict equality
with the boolean `true`. -/
def isStrictTrue : Except String JSVal × List String → Bool
  | (Except.ok (JSVal.bool true), _) => true
  | _ => false

/-- Combination of the results of one priority group:
`Array.prototype.every` for `'all'`, `Array.prototype.some` for `'any'`,
each with the strict `result === true` predicate. -/
def combineResults : BOp → List (Except String JSVal × List String) → Bool
  | BOp.all, rs => rs.all isStrictTrue
  | BOp.any, rs => rs.any isStrictTrue

/-- The first rejection among a group's settled promises (`Promise.all`
rejects when any member rejects). -/
def firstError : List (Except String JSVal × List String) → Option String
  | [] => none
  | (Except.error e, _) :: _ => some e
  | (Except.ok _, _) :: rest => firstError rest

/-- All fact lookups initiated by a list of condition evaluations, in order. -/
def joinTraces (rs : List (Except String JSVal × List String)) : List String :=
  (rs.map (fun r => r.2)).flatten

/-- The fulfillment value that triggers a short-circuit for each operator:
`true` for `'any'`, `false` for `'all'`. -/
def scValue : BOp → JSVal
  | BOp.any => JSVal.bool true
  | BOp.all => JSVal.bool false

mutual
/-- `Rule#evaluateCondition` (rule.js lines 83-97): a boolean-operator node
recursively runs its operator over its child array and the result is passed
to the condition's `evaluate`; a leaf resolves its fact through the engine
(recording the lookup in the trace) and passes the resolved value to the
condition's `evaluate`. -/
def evalCond (eng : Engine) (c : Condition) :
    Except String JSVal × List String :=
  match c with
  | .leaf f pm pr cmp =>
    match eng.factValue f pm with
    | Except.error e => (Except.error e, [f])
    | Except.ok v =>
      (Except.ok (Condition.evaluateVal (.leaf f pm pr cmp) v), [f])
  | .boolOp op pr children =>
    match prioritizeAndRun eng children op with
    | (Except.error e, t) => (Except.error e, t)
    | (Except.ok v, t) =>
      (Except.ok (Condition.evaluateVal (.boolOp op pr children) v), t)
termination_by cw c
decreasing_by
  simp only [cw]
  omega

/-- The `Promise.all(conditions.map(evaluateCondition))` of
`evaluateConditions`: every member of the group is evaluated (its fact
lookup initiated) regardless of its siblings' outcomes. -/
def evalGroup (eng : Engine) (cs : List Condition) :
    List (Except String JSVal × List String) :=
  match cs with
  | [] => []
  | c :: rest => evalCond eng c :: evalGroup eng rest
termination_by lw cs
decreasing_by
  all_goals simp only [lw]
  all_goals omega

/-- `Rule#evaluateConditions` (rule.js lines 134-141): evaluate all members
of one group together, then combine with `every`/`some` over the strict
`result === true` predicate; a rejection of any member rejects the group. -/
def evaluateConditions (eng : Engine) (cs : List Condition) (op : BOp) :
    Except String Bool × List String :=
  let rs := evalGroup eng cs
  match firstError rs with
  | some e => (Except.error e, joinTraces rs)
  | none => (Except.ok (combineResults op rs), joinTraces rs)
termination_by lw cs + 1
decreasing_by
  omega

/-- The promise-chain fold of `prioritizeAndRun` (rule.js lines 159-180):
each ordered priority group is chained onto the cursor; a chained callback
first checks the accumulated result against the short-circuit conditions
(`'any'` with `true`, `'all'` with `false`) and only otherwise starts the
group; a rejected cursor skips all remaining callbacks. -/
def runGroups (eng : Engine) (op : BOp)
    (acc : Except String JSVal × List String) (gs : List (List Condition)) :
    Except String JSVal × List String :=
  match gs with
  | [] => acc
  | g :: rest =>
    match acc with
    | (Except.error e, t) => (Except.error e, t)
    | (Except.ok v, t) =>
      if op = BOp.any ∧ v = JSVal.bool true then
        runGroups eng op (Except.ok (JSVal.bool true), t) rest
      else if op = BOp.all ∧ v = JSVal.bool false then
        runGroups eng op (Except.ok (JSVal.bool false), t) rest
      else
        match evaluateConditions eng g op with
        | (Except.error e, t2) =>
          runGroups eng op (Except.error e, t ++ t2) rest
        | (Except.ok b, t2) =>
          runGroups eng op (Except.ok (JSVal.bool b), t ++ t2) rest
termination_by gw gs
decreasing_by
  all_goals simp only [gw]
  all_goals omega

/-- `Rule#prioritizeAndRun` (rule.js lines 153-181): group the sibling list
by priority, then drive the groups sequentially starting from the initial
cursor `Promise.resolve()` (which resolves `undefined`); a failure in the
synchronous grouping step rejects before any fact lookup is initiated. -/
def prioritizeAndRun (eng : Engine) (cs : List Condition) (op : BOp) :
    Except String JSVal × List String :=
  match h : prioritizeConditions eng cs with
  | Except.error e => (Except.error e, [])
  | Except.ok groups => runGroups eng op (Except.ok JSVal.undef, []) groups
termination_by 2 * lw cs + 1
decreasing_by
  have hgw : gw groups ≤ 2 * lw cs := gw_groupByPriority (effPriority eng) cs groups h
  omega
end

/-- The root condition object accepted by `setConditions`: its top level
must carry `all` or `any` (rule.js lines 49-55); `evaluate()` dispatches on
the presence of the `any` key (rule.js lines 205-211). -/
inductive RootCond where
  | anyRoot (cs : List Condition) : RootCond
  | allRoot (cs : List Condition) : RootCond

/-- The mutable configuration state of a `Rule` instance that the verified
claims depend on. -/
structure Rule where
  priority : Option Int := none
  conditions : Option RootCond := none

/-- JS values that can be supplied as a priority: a number or a string
(`parseInt` coerces either). -/
inductive PVal where
  | num (n : Int) : PVal
  | str (s : String) : PVal
deriving DecidableEq

/-- Numeric value of a decimal digit list. -/
def natOfDigits (ds : List Char) : Nat :=
  ds.foldl (fun a c => a * 10 + (c.toNat - 48)) 0

/-- Leading-integer parse of a string, as `parseInt(s, 10)` does: skip
leading whitespace, accept an optional sign, then consume leading decimal
digits; `none` models the `NaN` result when no digit is found. -/
def parseLeadingInt (s : String) : Option Int :=
  let l := s.toList.dropWhile (fun c => c.isWhitespace)
  let signAndRest : Int × List Char :=
    match l with
    | '-' :: r => (-1, r)
    | '+' :: r => (1, r)
    | _ => (1, l)
  let ds := signAndRest.2.takeWhile (fun c => c.isDigit)
  if ds.isEmpty then none
  else some (signAndRest.1 * (natOfDigits ds : Int))

/-- `parseInt(priority, 10)` on the values representable here: an integer
coerces to itself; a string is parsed for a leading integer; `none` models
`NaN`. -/
def parseIntJS : PVal → Option Int
  | PVal.num n => some n
  | PVal.str s => parseLeadingInt s

/-- Core of `Rule#setPriority` (rule.js lines 38-43): coerce with
`parseInt`, throw when the result is `<= 0`, otherwise store it.  A `NaN`
parse satisfies neither `NaN <= 0` nor anything else, so it is silently
stored (modelled as `none`). -/
def setPriorityVal (p : PVal) : Except String (Option Int) :=
  match parseIntJS p with
  | none => Except.ok none
  | some n =>
    if n ≤ 0 then Except.error "Priority must be greater than zero"
    else Except.ok (some n)

/-- `Rule#setPriority`: validates and stores the priority, returning the
rule for chaining. -/
def Rule.setPriority (r : Rule) (p : PVal) : Except String Rule :=
  match setPriorityVal p with
  | Except.error e => Except.error e
  | Except.ok pr => Except.ok { r with priority := pr }

/-- Truthiness of a priority value, as tested by the constructor's
`(options && options.priority) || 1`: the number 0 and the empty string
are falsy. -/
def jsTruthyP : PVal → Bool
  | PVal.num n => n ≠ 0
  | PVal.str s => s ≠ ""

/-- The priority initialization performed by the `Rule` constructor
(rule.js lines 27-28): `let priority = (options && options.priority) || 1;
this.setPriority(priority)` — an absent or falsy priority is replaced by 1
before validation. -/
def constructPriority (optPriority : Option PVal) : Except String (Option Int) :=
  let p : PVal :=
    match optPriority with
    | none => PVal.num 1
    | some v => if jsTruthyP v then v else PVal.num 1
  setPriorityVal p

/-- `Rule#evaluate` (rule.js lines 205-211): dispatch on the root
condition's `any` key, else `all`; an unset `conditions` is a caller
defect (reading `.any` of `undefined` throws a TypeError). -/
def ruleEvaluate (eng : Engine) (r : Rule) :
    Except String JSVal × List String :=
  match r.conditions with
  | some (RootCond.anyRoot cs) => prioritizeAndRun eng cs BOp.any
  | some (RootCond.allRoot cs) => prioritizeAndRun eng cs BOp.all
  | none =>
    (Except.error "TypeError: cannot read properties of undefined", [])

theorem isStrictTrue_bool (b : Bool) (t : List String) :
    isStrictTrue (Except.ok (JSVal.bool b), t) = b := by
  cases b <;> rfl

theorem runGroups_append (eng : Engine) (op : BOp)
    (acc : Except String JSVal × List String)
    (xs ys : List (List Condition)) :
    runGroups eng op acc (xs ++ ys) =
      runGroups eng op (runGroups eng op acc xs) ys := by
  induction xs generalizing acc with
  | nil => simp [runGroups]
  | cons g gs ih =>
    obtain ⟨res, t⟩ := acc
    cases res with
    | error e =>
      rw [List.cons_append, runGroups, runGroups]
      rw [show runGroups eng op (Except.error e, t) ys
            = (Except.error e, t) by cases ys <;> rw [runGroups]]
    | ok v =>
      rw [List.cons_append, runGroups]
      conv_rhs => rw [runGroups]
      split
      · exact ih _
      · split
        · exact ih _
        · cases hge : evaluateConditions eng g op with
          | mk r t2 => cases r <;> simp only [hge] <;> exact ih _

theorem runGroups_absorb (eng : Engine) (op : BOp) (t : List String)
    (gs : List (List Condition)) :
    runGroups eng op (Except.ok (scValue op), t) gs =
      (Except.ok (scValue op), t) := by
  induction gs with
  | nil => rw [runGroups]
  | cons g rest ih =>
    cases op with
    | any => rw [runGroups]; simp [scValue]; exact ih
    | all => rw [runGroups]; simp [scValue]; exact ih

/-- C1: short-circuiting across priority groups.  If the priority-ordered
groups split as a prefix followed by remaining (lower-priority) groups, and
driving the chain through the prefix alone already yields the operator's
short-circuit value (`true` for `any`, `false` for `all`) with trace `t`,
then the whole `prioritizeAndRun` returns that value with exactly the same
trace `t`: no fact lookup of any remaining group is ever initiated. -/
theorem shortCircuitAcrossGroups (eng : Engine) (op : BOp)
    (cs : List Condition) (gs1 gs2 : List (List Condition)) (t : List String)
    (hsplit : prioritizeConditions eng cs = Except.ok (gs1 ++ gs2))
    (hpre : runGroups eng op (Except.ok JSVal.undef, []) gs1
      = (Except.ok (scValue op), t)) :
    prioritizeAndRun eng cs op = (Except.ok (scValue op), t) := by
  rw [prioritizeAndRun]
  split
  · rename_i e he
    rw [hsplit] at he
    exact absurd he (by simp)
  · rename_i groups hgroups
    rw [hsplit] at hgroups
    injection hgroups with hgroups
    subst hgroups
    rw [runGroups_append, hpre, runGroups_absorb]

theorem joinTraces_cons (r : Except String JSVal × List String)
    (rs : List (Except String JSVal × List String)) :
    joinTraces (r :: rs) = r.2 ++ joinTraces rs := by
  simp [joinTraces]

theorem evalCond_leaf_trace (eng : Engine) (f : String) (pm : JSVal)
    (pr : Option Int) (cmp : JSVal → JSVal) :
    (evalCond eng (Condition.leaf f pm pr cmp)).2 = [f] := by
  rw [evalCond]
  cases eng.factValue f pm <;> rfl

theorem evaluateConditions_trace (eng : Engine) (cs : List Condition)
    (op : BOp) :
    (evaluateConditions eng cs op).2 = joinTraces (evalGroup eng cs) := by
  rw [evaluateConditions]
  cases firstError (evalGroup eng cs) <;> rfl

theorem mem_joinTraces_of_mem (eng : Engine) (f : String) (pm : JSVal)
    (pr : Option Int) (cmp : JSVal → JSVal) :
    ∀ cs : List Condition, Condition.leaf f pm pr cmp ∈ cs →
    f ∈ joinTraces (evalGroup eng cs) := by
  intro cs
  induction cs with
  | nil => intro h; exact absurd h (by simp)
  | cons c rest ih =>
    intro h
    rw [evalGroup, joinTraces_cons]
    rcases List.mem_cons.mp h with hc | hc
    · subst hc
      rw [evalCond_leaf_trace]
      exact List.mem_append_left _ (by simp)
    · exact List.mem_append_right _ (ih hc)

/-- C2: no intra-group short-circuit.  Whenever a group (sibling list
handed to `evaluateConditions`) is evaluated, its trace is exactly the
concatenation of every member's trace, and in particular every leaf member
of the group has its fact lookup initiated — regardless of the operator
and of what any sibling evaluates to. -/
theorem noIntraGroupShortCircuit (eng : Engine) (cs : List Condition)
    (op : BOp) (f : String) (pm : JSVal) (pr : Option Int)
    (cmp : JSVal → JSVal) (hmem : Condition.leaf f pm pr cmp ∈ cs) :
    (evaluateConditions eng cs op).2 = joinTraces (evalGroup eng cs) ∧
    f ∈ (evaluateConditions eng cs op).2 := by
  refine ⟨evaluateConditions_trace eng cs op, ?_⟩
  rw [evaluateConditions_trace]
  exact mem_joinTraces_of_mem eng f pm pr cmp cs hmem

theorem isStrictTrue_iff (r : Except String JSVal × List String) :
    isStrictTrue r = true ↔ r.1 = Except.ok (JSVal.bool true) := by
  obtain ⟨res, t⟩ := r
  cases res with
  | error e => simp [isStrictTrue]
  | ok v =>
    cases v with
    | undef => simp [isStrictTrue]
    | bool b => cases b <;> simp [isStrictTrue]
    | num n => simp [isStrictTrue]
    | str s => simp [isStrictTrue]

/-- C10: strict `=== true` combination.  When `evaluateConditions`
fulfills with `b`, then for `all` the combined result is `true` exactly
when every member's result is the boolean `true`, and for `any` exactly
when some member's result is the boolean `true`; any other fulfillment
value of a member (truthy or not) counts as not satisfied. -/
theorem strictTrueCombination (eng : Engine) (cs : List Condition)
    (b : Bool) (t : List String) :
    (evaluateConditions eng cs BOp.all = (Except.ok b, t) →
      (b = true ↔ ∀ r ∈ evalGroup eng cs, r.1 = Except.ok (JSVal.bool true))) ∧
    (evaluateConditions eng cs BOp.any = (Except.ok b, t) →
      (b = true ↔ ∃ r ∈ evalGroup eng cs, r.1 = Except.ok (JSVal.bool true))) := by
  constructor
  · intro h
    rw [evaluateConditions] at h
    cases hfe : firstError (evalGroup eng cs) with
    | some e => rw [hfe] at h; exact absurd h (by simp)
    | none =>
      rw [hfe] at h
      have hb : b = combineResults BOp.all (evalGroup eng cs) := by
        have := congrArg Prod.fst h
        simpa using this.symm
      subst hb
      simp [combineResults, List.all_eq_true, isStrictTrue_iff]
  · intro h
    rw [evaluateConditions] at h
    cases hfe : firstError (evalGroup eng cs) with
    | some e => rw [hfe] at h; exact absurd h (by simp)
    | none =>
      rw [hfe] at h
      have hb : b = combineResults BOp.any (evalGroup eng cs) := by
        have := congrArg Prod.fst h
        simpa using this.symm
      subst hb
      simp [combineResults, List.any_eq_true, isStrictTrue_iff]

/-- C8: an empty sibling list yields zero priority groups, and the driver
resolves with the resolution value of the initial `Promise.resolve()`
cursor — `undefined` — having initiated no fact lookup at all. -/
theorem emptyConditionsDegenerate (eng : Engine) (op : BOp) :
    prioritizeConditions eng [] = Except.ok [] ∧
    prioritizeAndRun eng [] op = (Except.ok JSVal.undef, []) := by
  have h0 : prioritizeConditions eng [] = Except.ok ([] : List (List Condition)) := rfl
  refine ⟨h0, ?_⟩
  rw [prioritizeAndRun]
  split
  · rename_i e he
    rw [h0] at he
    exact absurd he (by simp)
  · rename_i groups hg
    rw [h0] at hg
    injection hg with hg
    subst hg
    rw [runGroups]

/-- C3: a boolean-operator node's result is the recursive `all`/`any`
result of its child array, used directly — the chain through
`condition.evaluate` applies no comparison to the nested result. -/
theorem boolNodeUsesNestedResult (eng : Engine) (op : BOp)
    (pr : Option Int) (cs : List Condition) :
    evalCond eng (Condition.boolOp op pr cs) = prioritizeAndRun eng cs op := by
  rw [evalCond]
  cases hr : prioritizeAndRun eng cs op with
  | mk res t => cases res <;> simp [Condition.evaluateVal]

theorem buildBuckets_error_of_mem (prio : Condition → Except String Int) :
    ∀ (cs : List Condition) (sets : List (Int × List Condition))
      (c : Condition) (e : String), c ∈ cs → prio c = Except.error e →
    ∃ e2, buildBuckets prio sets cs = Except.error e2 := by
  intro cs
  induction cs with
  | nil => intro _ _ _ h; exact absurd h (by simp)
  | cons c0 rest ih =>
    intro sets c e hmem hpc
    cases hp : prio c0 with
    | error e0 => exact ⟨e0, by rw [buildBuckets, hp]⟩
    | ok p =>
      rcases List.mem_cons.mp hmem with hc | hc
      · subst hc; rw [hpc] at hp; exact absurd hp (by simp)
      · obtain ⟨e2, he2⟩ := ih (insertBucket p c0 sets) c e hc hpc
        exact ⟨e2, by rw [buildBuckets, hp]; exact he2⟩

theorem buildBuckets_error_shape (prio : Condition → Except String Int) :
    ∀ (cs : List Condition) (sets : List (Int × List Condition))
      (e2 : String), buildBuckets prio sets cs = Except.error e2 →
    ∃ c ∈ cs, prio c = Except.error e2 := by
  intro cs
  induction cs with
  | nil => intro _ _ h; rw [buildBuckets] at h; exact absurd h (by simp)
  | cons c0 rest ih =>
    intro sets e2 h
    rw [buildBuckets] at h
    cases hp : prio c0 with
    | error e0 =>
      rw [hp] at h
      injection h with h
      subst h
      exact ⟨c0, by simp, hp⟩
    | ok p =>
      rw [hp] at h
      obtain ⟨c, hc, hpc⟩ := ih (insertBucket p c0 sets) e2 h
      exact ⟨c, by simp [hc], hpc⟩

theorem effPriority_error_shape (eng : Engine) (c : Condition) (e : String)
    (h : effPriority eng c = Except.error e) : ∃ g, e = undefFactMsg g := by
  have key : ∀ e2, factPriorityOf eng c = Except.error e2 →
      ∃ g, e2 = undefFactMsg g := by
    intro e2 h2
    rw [factPriorityOf] at h2
    split at h2
    · split at h2
      · exact absurd h2 (by simp)
      · injection h2 with h2
        exact ⟨_, h2.symm⟩
    · injection h2 with h2
      exact ⟨_, h2.symm⟩
  rw [effPriority] at h
  split at h
  · split at h
    · exact key e h
    · exact absurd h (by simp)
  · exact key e h

/-- C5: a sibling list containing a condition with no explicit priority
whose fact is unregistered makes `prioritizeAndRun` fail with an
undefined-fact error raised during priority grouping, with an empty
trace — no fact lookup of any condition in the list is ever initiated. -/
theorem undefinedFactFailsFast (eng : Engine) (cs : List Condition)
    (op : BOp) (f : String) (pm : JSVal) (cmp : JSVal → JSVal)
    (hmem : Condition.leaf f pm none cmp ∈ cs)
    (hfact : eng.getFact f = none) :
    ∃ g, prioritizeAndRun eng cs op = (Except.error (undefFactMsg g), []) := by
  have hpe : effPriority eng (Condition.leaf f pm none cmp)
      = Except.error (undefFactMsg (some f)) := by
    simp [effPriority, Condition.priorityField, factPriorityOf,
      Condition.factName, hfact]
  obtain ⟨e2, he2⟩ :=
    buildBuckets_error_of_mem (effPriority eng) cs [] _ _ hmem hpe
  obtain ⟨c', hc', hpc'⟩ := buildBuckets_error_shape _ cs [] e2 he2
  obtain ⟨g, hg⟩ := effPriority_error_shape _ _ _ hpc'
  have hpcs : prioritizeConditions eng cs = Except.error e2 := by
    simp only [prioritizeConditions, groupByPriority, he2]
  refine ⟨g, ?_⟩
  rw [prioritizeAndRun]
  split
  · rename_i e he
    rw [hpcs] at he
    injection he with he
    subst he
    rw [hg]
  · rename_i groups hgr
    rw [hpcs] at hgr
    exact absurd hgr (by simp)

/-- C9: idempotence.  Rule evaluation performs no mutation of the rule and
consumes the Fact Provider only through `getFact` and `factValue`; two
evaluations of the same configured rule against providers that report the
same registered priorities and resolve the same values (an unchanged
provider observed at two different times) produce identical results. -/
theorem evaluateIdempotent (e1 e2 : Engine) (r : Rule)
    (hg : ∀ f, e1.getFact f = e2.getFact f)
    (hv : ∀ f pm, e1.factValue f pm = e2.factValue f pm) :
    ruleEvaluate e1 r = ruleEvaluate e2 r := by
  have he : e1 = e2 := by
    cases e1 with
    | mk g1 v1 =>
      cases e2 with
      | mk g2 v2 =>
        have hg2 : g1 = g2 := funext hg
        have hv2 : v1 = v2 := funext (fun f => funext (hv f))
        rw [hg2, hv2]
  rw [he]

/-- C4 counterexample: constructing a rule with priority 0 does not raise a
configuration error — the constructor's `(options && options.priority) || 1`
treats the falsy 0 as absent and silently defaults the priority to 1. -/
theorem constructorZeroPriorityDefaults :
    constructPriority (some (PVal.num 0)) = Except.ok (some 1) := rfl

/-- C4 (amended): `setPriority(p)` raises a configuration error whenever
`p` coerces to an integer `<= 0` and stores the coerced integer unchanged
whenever it is `>= 1`; the constructor validates identically for a truthy
supplied priority, but a falsy priority (such as the number 0) is silently
replaced by the default 1 before validation. -/
theorem priorityValidation (r : Rule) (p : PVal) (n : Int) :
    (parseIntJS p = some n → n ≤ 0 →
      Rule.setPriority r p
        = Except.error "Priority must be greater than zero") ∧
    (parseIntJS p = some n → 1 ≤ n →
      Rule.setPriority r p = Except.ok { r with priority := some n }) ∧
    (jsTruthyP p = true → parseIntJS p = some n → n ≤ 0 →
      constructPriority (some p)
        = Except.error "Priority must be greater than zero") ∧
    (jsTruthyP p = false → constructPriority (some p) = Except.ok (some 1)) := by
  refine ⟨?_, ?_, ?_, ?_⟩
  · intro hp hn
    simp only [Rule.setPriority, setPriorityVal, hp, if_pos hn]
  · intro hp hn
    simp only [Rule.setPriority, setPriorityVal, hp,
      if_neg (show ¬n ≤ 0 by omega)]
  · intro ht hp hn
    simp only [constructPriority, ht, if_true, setPriorityVal, hp, if_pos hn]
  · intro ht
    simp only [constructPriority, ht, Bool.false_eq_true, if_false]
    rfl

/-- Leaf condition A of the C7 condition tree (`fact: 'a'`, no explicit
priority; its comparison evaluator passes the resolved value through). -/
def leafA : Condition := Condition.leaf "a" JSVal.undef none (fun v => v)

/-- Leaf condition B of the C7 condition tree. -/
def leafB : Condition := Condition.leaf "b" JSVal.undef none (fun v => v)

/-- Leaf condition C of the C7 condition tree. -/
def leafC : Condition := Condition.leaf "c" JSVal.undef none (fun v => v)

/-- Modelled from the spec: the inner `{any: [A, B]}` node of the C7 tree.
The external condition parser (src/condition.js, absent from the source
tree) supplies boolean-operator nodes with a priority — without one,
grouping would look up the `undefined` fact name; it is 1 here, the
default priority. -/
def innerAny : Condition := Condition.boolOp BOp.any (some 1) [leafA, leafB]

/-- The rule carrying the C7 condition tree `{all: [{any: [A, B]}, C]}`. -/
def ruleC7 : Rule :=
  { priority := some 1, conditions := some (RootCond.allRoot [innerAny, leafC]) }

/-- A Fact Provider registering facts a, b, c at priority 1 and resolving
them to the three given booleans. -/
def engABC (va vb vc : Bool) : Engine :=
  { getFact := fun _ => some 1
    factValue := fun f _ =>
      if f = "a" then Except.ok (JSVal.bool va)
      else if f = "b" then Except.ok (JSVal.bool vb)
      else Except.ok (JSVal.bool vc) }

/-- C7: the nested tree `{all: [{any: [A, B]}, C]}` evaluates to
`(A or B) and C` for every combination of truth values of the three leaf
conditions (all three facts are looked up: one shared priority group). -/
theorem nestedBooleanTruthTable (va vb vc : Bool) :
    ruleEvaluate (engABC va vb vc) ruleC7
      = (Except.ok (JSVal.bool ((va || vb) && vc)), ["a", "b", "c"]) := by
  simp [ruleEvaluate, ruleC7, prioritizeAndRun, runGroups, evaluateConditions,
    evalGroup, evalCond, prioritizeConditions, groupByPriority, buildBuckets,
    insertBucket, sortDesc, insertDesc, effPriority, factPriorityOf,
    Condition.priorityField, Condition.factName, engABC, innerAny, leafA,
    leafB, leafC, firstError, joinTraces, combineResults, isStrictTrue_bool,
    Condition.evaluateVal, undefFactMsg]

/-- Boolean test that a condition's priority key equals `p`. -/
def effPriorityIs (prio : Condition → Except String Int) (p : Int)
    (c : Condition) : Bool :=
  match prio c with
  | Except.ok q => q == p
  | Except.error _ => false

theorem effPriorityIs_self (prio : Condition → Except String Int)
    (p : Int) (c : Condition) (h : prio c = Except.ok p) :
    effPriorityIs prio p c = true := by
  simp [effPriorityIs, h]

theorem effPriorityIs_ne (prio : Condition → Except String Int)
    (p q : Int) (c : Condition) (h : prio c = Except.ok p) (hne : p ≠ q) :
    effPriorityIs prio q c = false := by
  simp [effPriorityIs, h, hne]

theorem keys_insertBucket (p : Int) (c : Condition) :
    ∀ sets : List (Int × List Condition),
    (insertBucket p c sets).map Prod.fst
      = if p ∈ sets.map Prod.fst then sets.map Prod.fst
        else sets.map Prod.fst ++ [p] := by
  intro sets
  induction sets with
  | nil => simp [insertBucket]
  | cons y rest ih =>
    obtain ⟨q, g⟩ := y
    by_cases hq : q = p
    · subst hq
      simp [insertBucket]
    · rw [show insertBucket p c ((q, g) :: rest)
          = (q, g) :: insertBucket p c rest by simp [insertBucket, hq]]
      by_cases hp : p ∈ rest.map Prod.fst
      · simp [hp, ih, hq, Ne.symm hq]
      · simp [hp, ih, hq, Ne.symm hq]

theorem filter_append_single_ne (prio : Condition → Except String Int)
    (p : Int) (c : Condition) (processed : List Condition) (k : Int)
    (hc : prio c = Except.ok p) (hk : k ≠ p) :
    (processed ++ [c]).filter (effPriorityIs prio k)
      = processed.filter (effPriorityIs prio k) := by
  rw [List.filter_append]
  simp [effPriorityIs_ne prio p k c hc (fun h2 => hk h2.symm)]

theorem insertBucket_filter (prio : Condition → Except String Int)
    (p : Int) (c : Condition) (processed : List Condition)
    (hc : prio c = Except.ok p) :
    ∀ sets : List (Int × List Condition),
    (∀ x ∈ sets, x.2 = processed.filter (effPriorityIs prio x.1)) →
    (sets.map Prod.fst).Nodup →
    (p ∉ sets.map Prod.fst →
      processed.filter (effPriorityIs prio p) = []) →
    ∀ x ∈ insertBucket p c sets,
      x.2 = (processed ++ [c]).filter (effPriorityIs prio x.1) := by
  intro sets
  induction sets with
  | nil =>
    intro _ _ hempty x hx
    rw [show insertBucket p c [] = [(p, [c])] from rfl] at hx
    have hx2 := List.mem_singleton.mp hx
    subst hx2
    rw [List.filter_append, hempty (by simp)]
    simp [effPriorityIs_self prio p c hc]
  | cons y rest ih =>
    intro hinv hnd hempty x hx
    obtain ⟨q, g⟩ := y
    rw [List.map_cons, List.nodup_cons] at hnd
    by_cases hq : q = p
    · subst hq
      rw [show insertBucket q c ((q, g) :: rest)
            = (q, g ++ [c]) :: rest by simp [insertBucket]] at hx
      rcases List.mem_cons.mp hx with hx2 | hx2
      · subst hx2
        have hg : g = processed.filter (effPriorityIs prio q) :=
          hinv (q, g) (by simp)
        rw [List.filter_append]
        simp [hg, effPriorityIs_self prio q c hc]
      · have hxq : x.1 ≠ q := by
          intro heq
          apply hnd.1
          rw [← heq]
          exact List.mem_map.mpr ⟨x, hx2, rfl⟩
        rw [filter_append_single_ne prio q c processed x.1 hc hxq]
        exact hinv x (by simp [hx2])
    · rw [show insertBucket p c ((q, g) :: rest)
            = (q, g) :: insertBucket p c rest by simp [insertBucket, hq]] at hx
      rcases List.mem_cons.mp hx with hx2 | hx2
      · subst hx2
        rw [filter_append_single_ne prio p c processed q hc hq]
        exact hinv (q, g) (by simp)
      · refine ih (fun z hz => hinv z (by simp [hz])) hnd.2 ?_ x hx2
        intro hpm
        refine hempty (fun hmem => ?_)
        rw [List.map_cons] at hmem
        rcases List.mem_cons.mp hmem with h2 | h2
        · exact hq h2.symm
        · exact hpm h2

theorem keys_insertBucket_nodup (p : Int) (c : Condition)
    (sets : List (Int × List Condition))
    (hnd : (sets.map Prod.fst).Nodup) :
    ((insertBucket p c sets).map Prod.fst).Nodup := by
  rw [keys_insertBucket]
  by_cases hp : p ∈ sets.map Prod.fst
  · rw [if_pos hp]; exact hnd
  · rw [if_neg hp]
    simp [List.nodup_append, hnd, hp]

theorem keys_insertBucket_superset (p : Int) (c : Condition)
    (sets : List (Int × List Condition)) (q : Int)
    (hq : q ∈ sets.map Prod.fst ∨ q = p) :
    q ∈ (insertBucket p c sets).map Prod.fst := by
  rw [keys_insertBucket]
  by_cases hp : p ∈ sets.map Prod.fst
  · rw [if_pos hp]
    rcases hq with hq | hq
    · exact hq
    · exact hq ▸ hp
  · rw [if_neg hp]
    rcases hq with hq | hq
    · exact List.mem_append_left _ hq
    · exact List.mem_append_right _ (by simp [hq])

theorem buildBuckets_invariant (prio : Condition → Except String Int) :
    ∀ (cs processed : List Condition)
      (sets sets' : List (Int × List Condition)),
    buildBuckets prio sets cs = Except.ok sets' →
    (∀ x ∈ sets, x.2 = processed.filter (effPriorityIs prio x.1)) →
    (sets.map Prod.fst).Nodup →
    (∀ c ∈ processed, ∃ q ∈ sets.map Prod.fst, prio c = Except.ok q) →
    (∀ x ∈ sets', x.2 = (processed ++ cs).filter (effPriorityIs prio x.1)) ∧
    (sets'.map Prod.fst).Nodup ∧
    (∀ c ∈ processed ++ cs, ∃ q ∈ sets'.map Prod.fst,
      prio c = Except.ok q) := by
  intro cs
  induction cs with
  | nil =>
    intro processed sets sets' hb hinv hnd hcomp
    rw [buildBuckets] at hb
    injection hb with hb
    subst hb
    simp only [List.append_nil]
    exact ⟨hinv, hnd, hcomp⟩
  | cons c cs ih =>
    intro processed sets sets' hb hinv hnd hcomp
    rw [buildBuckets] at hb
    cases hp : prio c with
    | error e => rw [hp] at hb; exact absurd hb (by simp)
    | ok p =>
      rw [hp] at hb
      have hempty : p ∉ sets.map Prod.fst →
          processed.filter (effPriorityIs prio p) = [] := by
        intro hpm
        rw [List.filter_eq_nil_iff]
        intro a ha
        obtain ⟨q, hq, haq⟩ := hcomp a ha
        have : q ≠ p := fun h2 => hpm (h2 ▸ hq)
        simp [effPriorityIs, haq, this]
      have step := ih (processed ++ [c]) (insertBucket p c sets) sets' hb
        (insertBucket_filter prio p c processed hp sets hinv hnd hempty)
        (keys_insertBucket_nodup p c sets hnd)
        (by
          intro a ha
          rcases List.mem_append.mp ha with ha | ha
          · obtain ⟨q, hq, haq⟩ := hcomp a ha
            exact ⟨q, keys_insertBucket_superset p c sets q (Or.inl hq), haq⟩
          · rw [List.mem_singleton.mp ha]
            exact ⟨p, keys_insertBucket_superset p c sets p (Or.inr rfl), hp⟩)
      simp only [List.append_assoc, List.singleton_append] at step
      exact step

theorem insertDesc_perm (x : Int × List Condition)
    (l : List (Int × List Condition)) :
    List.Perm (insertDesc x l) (x :: l) := by
  induction l with
  | nil => exact List.Perm.refl _
  | cons y ys ih =>
    rw [insertDesc]
    split
    · exact List.Perm.refl _
    · exact List.Perm.trans (List.Perm.cons y ih) (List.Perm.swap x y ys)

theorem sortDesc_perm (l : List (Int × List Condition)) :
    List.Perm (sortDesc l) l := by
  induction l with
  | nil => exact List.Perm.refl _
  | cons x xs ih =>
    exact List.Perm.trans (insertDesc_perm x (sortDesc xs))
      (List.Perm.cons x ih)

theorem sorted_insertDesc (x : Int × List Condition)
    (l : List (Int × List Condition))
    (hs : l.Pairwise (fun a b => a.1 ≥ b.1)) :
    (insertDesc x l).Pairwise (fun a b => a.1 ≥ b.1) := by
  induction l with
  | nil => simp [insertDesc]
  | cons y ys ih =>
    rw [insertDesc]
    rw [List.pairwise_cons] at hs
    split
    · rename_i hgt
      rw [List.pairwise_cons]
      refine ⟨?_, List.pairwise_cons.mpr hs⟩
      intro b hb
      rcases List.mem_cons.mp hb with hb | hb
      · subst hb; omega
      · have := hs.1 b hb; omega
    · rename_i hle
      rw [List.pairwise_cons]
      refine ⟨?_, ih hs.2⟩
      intro b hb
      have hb2 := (insertDesc_perm x ys).mem_iff.mp hb
      rcases List.mem_cons.mp hb2 with hb2 | hb2
      · subst hb2; omega
      · exact hs.1 b hb2

theorem sorted_sortDesc (l : List (Int × List Condition)) :
    (sortDesc l).Pairwise (fun a b => a.1 ≥ b.1) := by
  induction l with
  | nil => simp [sortDesc]
  | cons x xs ih => exact sorted_insertDesc x (sortDesc xs) ih

theorem groupByPriority_characterization
    (prio : Condition → Except String Int) (cs : List Condition)
    (gs : List (List Condition)) (h : groupByPriority prio cs = Except.ok gs) :
    ∃ ps : List Int,
      ps.Pairwise (fun a b => a > b) ∧
      gs = ps.map (fun p => cs.filter (effPriorityIs prio p)) ∧
      ∀ c ∈ cs, ∃ p ∈ ps, prio c = Except.ok p := by
  rw [groupByPriority] at h
  cases hb : buildBuckets prio [] cs with
  | error e => rw [hb] at h; exact absurd h (by simp)
  | ok sets =>
    rw [hb] at h
    injection h with h
    subst h
    obtain ⟨hfil, hnd, hcomp⟩ := buildBuckets_invariant prio cs [] [] sets hb
      (by simp) (by simp) (by simp)
    simp only [List.nil_append] at hfil hcomp
    refine ⟨(sortDesc sets).map Prod.fst, ?_, ?_, ?_⟩
    · have h1 : (sortDesc sets).Pairwise (fun a b => a.1 ≥ b.1) :=
        sorted_sortDesc sets
    
      have hndS : ((sortDesc sets).map Prod.fst).Nodup :=
        (List.Perm.nodup_iff (List.Perm.map Prod.fst (sortDesc_perm sets))).mpr hnd
      have h2 : (sortDesc sets).Pairwise (fun a b => a.1 ≠ b.1) :=
        List.pairwise_map.mp hndS
      rw [List.pairwise_map]
      exact (h1.and h2).imp (fun hab => by omega)
    · have hfil2 : ∀ x ∈ sortDesc sets,
          x.2 = cs.filter (effPriorityIs prio x.1) :=
        fun x hx => hfil x ((sortDesc_perm sets).mem_iff.mp hx)
      rw [List.map_map]
      exact List.map_congr_left hfil2
    · intro c hc
      obtain ⟨q, hq, hcq⟩ := hcomp c hc
      exact ⟨q, (List.Perm.map Prod.fst (sortDesc_perm sets)).mem_iff.mpr hq, hcq⟩

/-- C6 (amended): `prioritizeConditions` partitions a sibling list into
groups keyed by effective priority — the condition's own priority when
present and truthy (nonzero), otherwise its fact's registered priority —
with the groups ordered by strictly descending numeric priority and each
group listing exactly the conditions of its key in original insertion
order (a `filter` of the input list). -/
theorem prioritizeGroupsCharacterization (eng : Engine) (cs : List Condition)
    (gs : List (List Condition))
    (h : prioritizeConditions eng cs = Except.ok gs) :
    ∃ ps : List Int,
      ps.Pairwise (fun a b => a > b) ∧
      gs = ps.map (fun p => cs.filter (effPriorityIs (effPriority eng) p)) ∧
      ∀ c ∈ cs, ∃ p ∈ ps, effPriority eng c = Except.ok p :=
  groupByPriority_characterization (effPriority eng) cs gs h

/-- A provider registering fact f at priority 5 and fact g at priority 7. -/
def engC6 : Engine :=
  { getFact := fun f =>
      if f = "f" then some 5 else if f = "g" then some 7 else none
    factValue := fun _ _ => Except.ok JSVal.undef }

/-- A condition with an explicit priority field holding 0 (fact f). -/
def condZero : Condition := Condition.leaf "f" JSVal.undef (some 0) (fun v => v)

/-- A condition with explicit priority 3 (fact g). -/
def condThree : Condition := Condition.leaf "g" JSVal.undef (some 3) (fun v => v)

/-- C6 counterexample: for a condition whose `priority` field is present
but 0, the code ignores the field (JS `!priority`) and uses the fact's
registered priority 5, grouping it before the priority-3 condition; the
claim's reading ("own priority if present") would order it after.  The two
groupings differ, refuting the claim as stated. -/
theorem prioritizeZeroPriorityCounterexample :
    prioritizeConditions engC6 [condZero, condThree]
        = Except.ok [[condZero], [condThree]] ∧
    claimPrioritizeConditions engC6 [condZero, condThree]
        = Except.ok [[condThree], [condZero]] ∧
    prioritizeConditions engC6 [condZero, condThree]
        ≠ claimPrioritizeConditions engC6 [condZero, condThree] := by
  refine ⟨rfl, rfl, ?_⟩
  intro hcontra
  rw [show prioritizeConditions engC6 [condZero, condThree]
        = Except.ok [[condZero], [condThree]] from rfl] at hcontra
  rw [show claimPrioritizeConditions engC6 [condZero, condThree]
        = Except.ok [[condThree], [condZero]] from rfl] at hcontra
  injection hcontra with hcontra
  simp [condZero, condThree] at hcontra

/-- A provider with a high-priority fact hi resolving true and a
low-priority fact lo resolving false. -/
def engSC : Engine :=
  { getFact := fun f =>
      if f = "hi" then some 10 else if f = "lo" then some 1 else none
    factValue := fun f _ =>
      if f = "hi" then Except.ok (JSVal.bool true)
      else Except.ok (JSVal.bool false) }

/-- Leaf condition on fact hi (no explicit priority). -/
def hiCond : Condition := Condition.leaf "hi" JSVal.undef none (fun v => v)

/-- Leaf condition on fact lo (no explicit priority). -/
def loCond : Condition := Condition.leaf "lo" JSVal.undef none (fun v => v)

theorem shortCircuitAcrossGroups_witness :
    prioritizeAndRun engSC [hiCond, loCond] BOp.any
      = (Except.ok (JSVal.bool true), ["hi"]) :=
  shortCircuitAcrossGroups engSC BOp.any [hiCond, loCond]
    [[hiCond]] [[loCond]] ["hi"] rfl
    (by simp [runGroups, evaluateConditions, evalGroup, evalCond, engSC,
      hiCond, firstError, joinTraces, combineResults, isStrictTrue,
      Condition.evaluateVal, scValue])

theorem noIntraGroupShortCircuit_witness :
    (evaluateConditions engSC [loCond, hiCond] BOp.all).2
        = joinTraces (evalGroup engSC [loCond, hiCond]) ∧
    "hi" ∈ (evaluateConditions engSC [loCond, hiCond] BOp.all).2 :=
  noIntraGroupShortCircuit engSC [loCond, hiCond] BOp.all "hi" JSVal.undef
    none (fun v => v) (by simp [hiCond])

theorem priorityValidation_witness :
    Rule.setPriority {} (PVal.str "0")
        = Except.error "Priority must be greater than zero" ∧
    Rule.setPriority {} (PVal.num 5) = Except.ok { priority := some 5 } ∧
    constructPriority (some (PVal.num (-2)))
        = Except.error "Priority must be greater than zero" ∧
    constructPriority (some (PVal.str "")) = Except.ok (some 1) :=
  ⟨(priorityValidation {} (PVal.str "0") 0).1 rfl (by decide),
   (priorityValidation {} (PVal.num 5) 5).2.1 rfl (by decide),
   (priorityValidation {} (PVal.num (-2)) (-2)).2.2.1 (by decide) rfl
     (by decide),
   (priorityValidation {} (PVal.str "") 0).2.2.2 rfl⟩

/-- A provider with no registered facts. -/
def engW5 : Engine :=
  { getFact := fun _ => none
    factValue := fun _ _ => Except.ok JSVal.undef }

theorem undefinedFactFailsFast_witness :
    ∃ g, prioritizeAndRun engW5
        [Condition.leaf "mystery" JSVal.undef none (fun v => v)] BOp.all
      = (Except.error (undefFactMsg g), []) :=
  undefinedFactFailsFast engW5
    [Condition.leaf "mystery" JSVal.undef none (fun v => v)] BOp.all
    "mystery" JSVal.undef (fun v => v) (by simp) rfl

theorem prioritizeGroupsCharacterization_witness :
    ∃ ps : List Int,
      ps.Pairwise (fun a b => a > b) ∧
      [[condZero], [condThree]] = ps.map (fun p =>
        [condZero, condThree].filter (effPriorityIs (effPriority engC6) p)) ∧
      ∀ c ∈ [condZero, condThree],
        ∃ p ∈ ps, effPriority engC6 c = Except.ok p :=
  prioritizeGroupsCharacterization engC6 [condZero, condThree]
    [[condZero], [condThree]] rfl

/-- A constant provider, first observation. -/
def engW9a : Engine :=
  { getFact := fun _ => some 1
    factValue := fun _ _ => Except.ok (JSVal.bool true) }

/-- The same constant provider, observed a second time. -/
def engW9b : Engine :=
  { getFact := fun _ => some 1
    factValue := fun _ _ => Except.ok (JSVal.bool true) }

/-- A rule used to witness idempotent evaluation. -/
def ruleW9 : Rule :=
  { priority := some 1, conditions := some (RootCond.anyRoot [hiCond]) }

theorem evaluateIdempotent_witness :
    ruleEvaluate engW9a ruleW9 = ruleEvaluate engW9b ruleW9 :=
  evaluateIdempotent engW9a engW9b ruleW9 (fun _ => rfl) (fun _ _ => rfl)

/-- A provider resolving every fact to the boolean true. -/
def engW10 : Engine :=
  { getFact := fun _ => some 1
    factValue := fun _ _ => Except.ok (JSVal.bool true) }

/-- A condition whose comparison evaluator returns the truthy non-boolean
number 1. -/
def truthyCond : Condition :=
  Condition.leaf "t" JSVal.undef none (fun _ => JSVal.num 1)

theorem strictTrueCombination_witness :
    (false = true ↔ ∀ r ∈ evalGroup engW10 [truthyCond],
      r.1 = Except.ok (JSVal.bool true)) :=
  (strictTrueCombination engW10 [truthyCond] false ["t"]).1
    (by simp [evaluateConditions, evalGroup, evalCond, engW10, truthyCond,
      firstError, joinTraces, combineResults, isStrictTrue,
      Condition.evaluateVal])
